import Mathlib

set_option maxRecDepth 16384

/-!
Shallow embedding of the MEDICAL-RAG repository (src/ingest.py and
src/test_embeddings.py) and verification of its specification claims.

Strings are modelled by Lean `String` (a list of characters); Python's
tokenizer `enc.encode` (cl100k_base) is an external collaborator and is
abstracted by a function `tok : String → Nat` giving `len(enc.encode s)`.
While-loops are modelled by structurally recursive functions with an
explicit fuel argument; each top-level wrapper supplies fuel that provably
suffices, so the model computes by kernel reduction.
-/

namespace MedRag

/-- ASCII whitespace as matched by Python's `\s` and `str.strip()`:
space, tab, newline, carriage return, vertical tab, form feed. -/
def isPySpace (c : Char) : Bool :=
  c = ' ' || c = '\t' || c = '\n' || c = '\r' || c = '\x0b' || c = '\x0c'

/-- Space-or-tab, the character class `[ \t]` of `clean_text`'s fourth step. -/
def isSpTab (c : Char) : Bool :=
  c = ' ' || c = '\t'

/-- Python `str.strip()` on a character list: drop whitespace from both ends. -/
def pyStripL (l : List Char) : List Char :=
  ((l.dropWhile isPySpace).reverse.dropWhile isPySpace).reverse

/-- Python `str.strip()` on a string. -/
def pyStrip (s : String) : String :=
  ⟨pyStripL s.data⟩

/-- `t.replace("\r", " ")` (ingest.py line 36). -/
def replCR (l : List Char) : List Char :=
  l.map (fun c => if c = '\r' then ' ' else c)

/-- `re.sub(r"-\s*\n\s*", "", t)` (ingest.py line 37): a hyphen followed by a
whitespace run containing a newline is removed together with that whole run
(leftmost, non-overlapping; both `\s*` are greedy, so the match always covers
the maximal whitespace run after the hyphen). Fuel-driven recursion; fuel equal
to the list length suffices since every step consumes at least one character. -/
def hyphJoinGo : Nat → List Char → List Char
  | 0, l => l
  | _ + 1, [] => []
  | fuel + 1, c :: rest =>
    if c = '-' ∧ '\n' ∈ rest.takeWhile isPySpace then
      hyphJoinGo fuel (rest.dropWhile isPySpace)
    else
      c :: hyphJoinGo fuel rest

/-- One maximal-whitespace-run rewrite of `re.sub(r"\s+\n", "\n", t)`
(ingest.py line 38): within a maximal whitespace run, the greedy match eats
everything up to (and including) the last newline of the run, provided that
newline is not the run's first character; the replacement is a lone newline. -/
def collapseRun (run : List Char) : List Char :=
  if '\n' ∈ run then
    if ((run.reverse.takeWhile (fun c => ¬ c = '\n')).reverse).length + 2 ≤ run.length
    then '\n' :: (run.reverse.takeWhile (fun c => ¬ c = '\n')).reverse
    else run
  else run

/-- `re.sub(r"\s+\n", "\n", t)` (ingest.py line 38), processing each maximal
whitespace run with `collapseRun`. -/
def wsNlGo : Nat → List Char → List Char
  | 0, l => l
  | _ + 1, [] => []
  | fuel + 1, c :: rest =>
    if isPySpace c then
      collapseRun (c :: rest.takeWhile isPySpace) ++ wsNlGo fuel (rest.dropWhile isPySpace)
    else
      c :: wsNlGo fuel rest

/-- `re.sub(r"[ \t]+", " ", t)` (ingest.py line 39): collapse every maximal
run of spaces/tabs to a single space. -/
def collapseSpTab : Nat → List Char → List Char
  | 0, l => l
  | _ + 1, [] => []
  | fuel + 1, c :: rest =>
    if isSpTab c then
      ' ' :: collapseSpTab fuel (rest.dropWhile isSpTab)
    else
      c :: collapseSpTab fuel rest

/-- `t.replace("\n", " ")` (ingest.py line 40). -/
def mapNL (l : List Char) : List Char :=
  l.map (fun c => if c = '\n' then ' ' else c)

/-- `clean_text` (ingest.py lines 34-41): normalize whitespace and fix
hyphenation across line breaks. -/
def clean_text (s : String) : String :=
  let t1 := replCR s.data
  let t2 := hyphJoinGo t1.length t1
  let t3 := wsNlGo t2.length t2
  let t4 := collapseSpTab t3.length t3
  let t5 := mapNL t4
  pyStrip ⟨t5⟩

/-- Is this character a sentence terminator (`[.!?]`)? -/
def isTerm (c : Char) : Bool :=
  c = '.' || c = '!' || c = '?'

/-- Does the (reversed) accumulator end in a sentence terminator? -/
def headIsTerm : Option Char → Bool
  | some c => isTerm c
  | none => false

/-- Fragmenting for `re.split(r'(?<=[.!?])\s+', text)`: a whitespace character
whose predecessor is `.`, `!` or `?` starts a split. The accumulator holds the
current fragment reversed. The regex's greedy `\s+` eats the whole whitespace
run; here the run's tail is left at the front of the next fragment instead,
which is harmless because every fragment is `strip`ped afterwards (no further
split can fire inside the run: its characters are not sentence terminators). -/
def ssGo : List Char → List Char → List (List Char)
  | acc, [] => [acc.reverse]
  | acc, c :: rest =>
    if isPySpace c ∧ headIsTerm acc.head? then
      acc.reverse :: ssGo [] rest
    else
      ssGo (c :: acc) rest

/-- `split_sentences` (ingest.py lines 43-46): split on sentence-terminal
punctuation followed by whitespace, strip fragments, drop empty ones. -/
def split_sentences (s : String) : List String :=
  ((ssGo [] (pyStrip s).data).map (fun l => pyStrip ⟨l⟩)).filter (fun x => ¬ x = "")

/-- `" ".join(piece)`. -/
def joinSp : List String → String
  | [] => ""
  | [s] => s
  | s :: rest => s ++ " " ++ joinSp rest

/-- The token-ceiling while-loop of `chunk_page_by_sentences` (ingest.py
lines 64-67): while `max_tokens` is non-zero (Python truthiness) and the
joined window exceeds `max_tokens` and the window has more than one sentence,
drop the last sentence. Fuel equal to the window length suffices. -/
def trimGo (tok : String → Nat) (maxT : Nat) : Nat → List String → List String
  | 0, piece => piece
  | fuel + 1, piece =>
    if ¬ maxT = 0 ∧ maxT < tok (joinSp piece) ∧ 1 < piece.length then
      trimGo tok maxT fuel piece.dropLast
    else piece

/-- The trimmed window: `trimGo` with sufficient fuel. -/
def trimPiece (tok : String → Nat) (maxT : Nat) (piece : List String) : List String :=
  trimGo tok maxT piece.length piece

/-- The candidate windows visited by the while-loop of
`chunk_page_by_sentences` (ingest.py lines 54-60): starting at `i`, the slice
`sents[i : i + sents_per_chunk]`, advancing `i` by `max 1 (spc - overlap)`,
stopping when `i` reaches the sentence count or the slice is empty. -/
def candGo (sents : List String) (spc ov : Nat) : Nat → Nat → List (List String)
  | 0, _ => []
  | fuel + 1, i =>
    if i < sents.length then
      let piece := (sents.drop i).take spc
      if piece.isEmpty then []
      else piece :: candGo sents spc ov fuel (i + max 1 (spc - ov))
    else []

/-- All candidate windows of a sentence list (sufficient fuel supplied). -/
def candidateWindows (sents : List String) (spc ov : Nat) : List (List String) :=
  candGo sents spc ov sents.length 0

/-- The main loop of `chunk_page_by_sentences` (ingest.py lines 54-71):
for each candidate window, join it, enforce the token ceiling, and yield the
joined chunk if its token count is at least `min_tokens`. -/
def chunkGo (tok : String → Nat) (sents : List String) (spc ov maxT minT : Nat) :
    Nat → Nat → List String
  | 0, _ => []
  | fuel + 1, i =>
    if i < sents.length then
      let piece := (sents.drop i).take spc
      if piece.isEmpty then []
      else
        let c := joinSp (trimPiece tok maxT piece)
        let rest := chunkGo tok sents spc ov maxT minT fuel (i + max 1 (spc - ov))
        if minT ≤ tok c then c :: rest else rest
    else []

/-- The chunker applied to an already-split sentence list. -/
def chunkSentences (tok : String → Nat) (sents : List String)
    (spc ov maxT minT : Nat) : List String :=
  chunkGo tok sents spc ov maxT minT sents.length 0

/-- `chunk_page_by_sentences` (ingest.py lines 48-71): split the page text
into sentences, then slide the window. `tok` abstracts `len(enc.encode ·)`. -/
def chunk_page_by_sentences (tok : String → Nat) (text : String)
    (spc ov maxT minT : Nat) : List String :=
  chunkSentences tok (split_sentences text) spc ov maxT minT

/-! ### Configuration constants (ingest.py lines 20-31, test_embeddings.py lines 13-15) -/

def PDF_PATH : String := "human-nutrition-text.pdf"

def DOC_ID : String := "nutrition-v1"

def BATCH_EMBED : Nat := 100

def BATCH_INSERT : Nat := 200

def SENTS_PER_CHUNK : Nat := 20

def SENT_OVERLAP : Nat := 2

def MAX_TOKENS : Nat := 1300

def MIN_TOKENS : Nat := 50

def TOP_K : Nat := 3

/-! ### The ingestion pipeline (ingest.py lines 73-128) -/

/-- A persisted row of the `chunks` table (ingest.py lines 115-122).
The embedding vector is abstracted as a list of integers; `metadata` is
flattened into its two fields `page` and `source`. -/
structure Row where
  doc_id : String
  chunk_index : Nat
  content : String
  page : Nat
  source : String
  embedding : List Int
deriving DecidableEq, Repr

/-- `sb.table("chunks").delete().eq("doc_id", DOC_ID)` (ingest.py line 88):
remove every row whose `doc_id` matches. -/
def deleteDoc (docId : String) (index : List Row) : List Row :=
  index.filter (fun r => ¬ r.doc_id = docId)

/-- `pdf_pages` (ingest.py lines 73-81): given the raw text of each page of
the opened document (the external PyMuPDF collaborator), yield
`(1-based page number, clean_text raw)`. -/
def pdf_pages (rawPages : List String) : List (Nat × String) :=
  rawPages.enum.map (fun p => (p.1 + 1, clean_text p.2))

/-- The chunk-building loop of `main` (ingest.py lines 94-101): for each page,
skip it when its text is empty, otherwise append each chunk paired with its
`{page, source}` metadata. `inputs` and `metas` are the two components. -/
def buildChunks (tok : String → Nat) (pages : List (Nat × String)) (source : String)
    (spc ov maxT minT : Nat) : List (String × (Nat × String)) :=
  pages.flatMap (fun pt =>
    if pt.2 = "" then []
    else (chunk_page_by_sentences tok pt.2 spc ov maxT minT).map (fun c => (c, (pt.1, source))))

/-- The slices `l[i : i + bs]` for `i = 0, bs, 2*bs, ...` (ingest.py
lines 108-109 and 125-126). Fuel-driven; fuel equal to the list length
suffices for any positive batch size. -/
def batchedGo (bs : Nat) : Nat → List α → List (List α)
  | _, [] => []
  | 0, _ :: _ => []
  | fuel + 1, a :: l => ((a :: l).take bs) :: batchedGo bs fuel ((a :: l).drop bs)

/-- The batches of a list, in order. -/
def batched (bs : Nat) (l : List α) : List (List α) :=
  batchedGo bs l.length l

/-- The embedding stage of `main` (ingest.py lines 106-111): call the
external `EmbeddingClient` (abstracted as `embed`) once per batch and
concatenate the per-batch results in order (`vectors.extend`). -/
def embedBatched (embed : List String → List (List Int)) (bs : Nat)
    (inputs : List String) : List (List Int) :=
  ((batched bs inputs).map embed).flatten

/-- The row-building loop of `main` (ingest.py lines 114-122):
`enumerate(zip(inputs, vectors, metas))`, assigning `chunk_index = idx`.
Like Python's `zip`, `List.zip` truncates to the shortest input. -/
def buildRows (docId : String) (inputs : List String) (vectors : List (List Int))
    (metas : List (Nat × String)) : List Row :=
  ((inputs.zip (vectors.zip metas)).enum).map (fun e =>
    ⟨docId, e.1, e.2.1, e.2.2.2.1, e.2.2.2.2, e.2.2.1⟩)

/-- The rows a successful run of `main` inserts, as a function of the raw
page texts and the external collaborators `tok` and `embed`. -/
def ingestRows (tok : String → Nat) (embed : List String → List (List Int))
    (rawPages : List String) (docId source : String)
    (spc ov maxT minT embedBs : Nat) : List Row :=
  let im := buildChunks tok (pdf_pages rawPages) source spc ov maxT minT
  let inputs := im.map Prod.fst
  let metas := im.map Prod.snd
  buildRows docId inputs (embedBatched embed embedBs inputs) metas

/-- `main` (ingest.py lines 83-128) as a state transformer on the vector
index. The index is the external Supabase table, modelled as a list of rows;
`rawPages = none` models an extraction failure (`fitz.open`/`get_text`
raising inside `list(pdf_pages(PDF_PATH))` at line 91). The run first deletes
the document's rows (line 88), **then** extracts; on extraction failure it
aborts there, returning the post-delete state and no insert count. On success
the rows are inserted batch by batch (lines 125-126). -/
def ingestMain (tok : String → Nat) (embed : List String → List (List Int))
    (rawPages : Option (List String)) (docId source : String)
    (spc ov maxT minT embedBs insertBs : Nat) (index : List Row) :
    List Row × Option Nat :=
  let index1 := deleteDoc docId index
  match rawPages with
  | none => (index1, none)
  | some rp =>
    let rows := ingestRows tok embed rp docId source spc ov maxT minT embedBs
    ((batched insertBs rows).foldl (fun acc b => acc ++ b) index1, some rows.length)

/-! ### The retrieval probe (test_embeddings.py lines 26-54) -/

/-- The `metadata` JSON object of a returned row: possibly absent `page`. -/
structure PageMeta where
  page : Option Nat
deriving DecidableEq, Repr

/-- A row returned by the `match_documents` RPC, every field possibly
missing (`r.get(...)` in test_embeddings.py lines 49-53). The similarity is
abstracted as an integer-valued score; its numeric rendering `f"{sim:.3f}"`
is abstracted by a formatting function. -/
structure RpcRow where
  content : Option String
  metadata : Option PageMeta
  similarity : Option Int
  chunk_index : Option Nat
deriving DecidableEq, Repr

/-- `(r.get("metadata") or {}).get("page", "?")` (test_embeddings.py line 49),
rendered for display. -/
def pageStr (r : RpcRow) : String :=
  match (r.metadata.getD ⟨none⟩).page with
  | some p => toString p
  | none => "?"

/-- `f"{sim:.3f}" if isinstance(sim, (int, float)) else "?"`
(test_embeddings.py lines 50-51); `fmt` abstracts the numeric formatting. -/
def simStr (fmt : Int → String) (r : RpcRow) : String :=
  match r.similarity with
  | some s => fmt s
  | none => "?"

/-- `r.get("chunk_index")` rendered as Python prints it. -/
def chunkIdxStr (r : RpcRow) : String :=
  match r.chunk_index with
  | some k => toString k
  | none => "None"

/-- The per-query display of `main` (test_embeddings.py lines 41-54):
`rows = resp.data or []`; an empty result set prints `  (no matches)`;
otherwise one line per row (1-based rank), with missing fields rendered by
the sentinel defaults above. The content preview only formats/truncates. -/
def probeLines (fmt : Int → String) (data : Option (List RpcRow)) : List String :=
  let rows := data.getD []
  if rows.isEmpty then ["  (no matches)"]
  else rows.enum.map (fun e =>
    "  [" ++ toString (e.1 + 1) ++ "] page " ++ pageStr e.2 ++
    "  sim=" ++ simStr fmt e.2 ++ "  chunk_index=" ++ chunkIdxStr e.2)

/-- Arithmetic shadow of `batchedGo`: the list of batch sizes produced for an
input of the given length. -/
def sizesGo (bs : Nat) : Nat → Nat → List Nat
  | _, 0 => []
  | 0, _ + 1 => []
  | fuel + 1, n + 1 => min bs (n + 1) :: sizesGo bs fuel (n + 1 - bs)

/-- Drop trailing Python whitespace (the second half of `str.strip()`). -/
def dropEndWs (l : List Char) : List Char :=
  (l.reverse.dropWhile isPySpace).reverse

/-- No two adjacent characters are both in the class `[ \t]`: the shape of
any output of the `[ \t]+ → " "` collapsing step. -/
def goodRuns (l : List Char) : Prop :=
  l.Chain' (fun a b => isSpTab a = false ∨ isSpTab b = false)

/-! ## Helper lemmas -/

theorem dw_head (p : α → Bool) :
    ∀ (l : List α) (c : α), (l.dropWhile p).head? = some c → p c = false := by
  intro l
  induction l with
  | nil => intro c h; simp at h
  | cons a t ih =>
    intro c h
    rw [List.dropWhile_cons] at h
    by_cases hp : p a
    · rw [if_pos hp] at h
      exact ih c h
    · rw [if_neg hp] at h
      have hac : a = c := by simpa using h
      subst hac
      simpa using hp

theorem dw_eq_self (p : α → Bool) (l : List α)
    (h : ∀ c, l.head? = some c → p c = false) : l.dropWhile p = l := by
  cases l with
  | nil => rfl
  | cons a t => rw [List.dropWhile_cons, if_neg (by simp [h a rfl])]

theorem dw_idem (p : α → Bool) (l : List α) :
    (l.dropWhile p).dropWhile p = l.dropWhile p :=
  dw_eq_self p _ (fun c hc => dw_head p l c hc)

theorem dropEndWs_idem (y : List Char) : dropEndWs (dropEndWs y) = dropEndWs y := by
  simp [dropEndWs, List.reverse_reverse, dw_idem]

theorem dw_append [DecidableEq α] (p : α → Bool) (u v : List α) :
    (u ++ v).dropWhile p =
      if u.dropWhile p = [] then v.dropWhile p else u.dropWhile p ++ v := by
  induction u with
  | nil => simp
  | cons a t ih =>
    by_cases hp : p a
    · simpa [List.dropWhile_cons, hp] using ih
    · simp [List.dropWhile_cons, hp]

theorem dropEndWs_head (y : List Char) :
    (dropEndWs y).head? = none ∨ (dropEndWs y).head? = y.head? := by
  cases y with
  | nil => left; rfl
  | cons a t =>
    have e : dropEndWs (a :: t) =
        ((t.reverse ++ [a]).dropWhile isPySpace).reverse := by
      simp [dropEndWs]
    rw [e, dw_append isPySpace]
    by_cases h3 : t.reverse.dropWhile isPySpace = []
    · rw [if_pos h3]
      by_cases h4 : isPySpace a
      · left; simp [List.dropWhile_cons, h4]
      · right; simp [List.dropWhile_cons, h4]
    · rw [if_neg h3, List.reverse_append]
      right; simp

theorem pyStripL_eq (l : List Char) :
    pyStripL l = dropEndWs (l.dropWhile isPySpace) := rfl

theorem pyStripL_idem (l : List Char) : pyStripL (pyStripL l) = pyStripL l := by
  rw [pyStripL_eq l, pyStripL_eq]
  have key : (dropEndWs (l.dropWhile isPySpace)).dropWhile isPySpace =
      dropEndWs (l.dropWhile isPySpace) := by
    apply dw_eq_self
    intro c hc
    rcases dropEndWs_head (l.dropWhile isPySpace) with h | h
    · rw [h] at hc; cases hc
    · rw [h] at hc
      exact dw_head isPySpace l c hc
  rw [key, dropEndWs_idem]

theorem pyStrip_idem (s : String) : pyStrip (pyStrip s) = pyStrip s := by
  simp [pyStrip, pyStripL_idem]

/-! ### Trimming-loop lemmas -/

theorem trimGo_zero (tok : String → Nat) (fuel : Nat) (p : List String) :
    trimGo tok 0 fuel p = p := by
  cases fuel with
  | zero => rfl
  | succ n => simp [trimGo]

theorem trimGo_single (tok : String → Nat) (maxT fuel : Nat) (s : String) :
    trimGo tok maxT fuel [s] = [s] := by
  cases fuel with
  | zero => rfl
  | succ n => simp [trimGo]

theorem trimGo_take (tok : String → Nat) (maxT : Nat) :
    ∀ fuel (p : List String), ∃ n, 0 < n ∧ trimGo tok maxT fuel p = p.take n := by
  intro fuel
  induction fuel with
  | zero =>
    intro p
    exact ⟨p.length + 1, Nat.succ_pos _, by simp [trimGo, List.take_of_length_le]⟩
  | succ m ih =>
    intro p
    rw [trimGo]
    split
    · rename_i hcond
      obtain ⟨n, hn, he⟩ := ih p.dropLast
      refine ⟨min n (p.length - 1), ?_, ?_⟩
      · have : 1 < p.length := hcond.2.2
        omega
      · rw [he, List.dropLast_eq_take, List.take_take]
    · exact ⟨p.length + 1, Nat.succ_pos _, by simp [List.take_of_length_le]⟩

theorem trimGo_ne_nil (tok : String → Nat) (maxT : Nat) (fuel : Nat) (p : List String)
    (hp : ¬ p = []) : ¬ trimGo tok maxT fuel p = [] := by
  obtain ⟨n, hn, he⟩ := trimGo_take tok maxT fuel p
  rw [he]
  intro hnil
  have h1 : (p.take n).length = min n p.length := List.length_take ..
  rw [hnil] at h1
  have h2 : 0 < p.length := List.length_pos.mpr hp
  simp at h1
  omega

theorem trimGo_le (tok : String → Nat) (maxT : Nat) (hm : ¬ maxT = 0) :
    ∀ fuel (p : List String), p.length ≤ fuel + 1 →
      1 < (trimGo tok maxT fuel p).length →
      tok (joinSp (trimGo tok maxT fuel p)) ≤ maxT := by
  intro fuel
  induction fuel with
  | zero =>
    intro p hlen hgt
    rw [trimGo] at hgt ⊢
    omega
  | succ m ih =>
    intro p hlen hgt
    rw [trimGo] at hgt ⊢
    split at hgt
    · rename_i hcond
      rw [if_pos hcond]
      refine ih p.dropLast ?_ hgt
      rw [List.length_dropLast]
      omega
    · rename_i hcond
      rw [if_neg hcond]
      push_neg at hcond
      exact Nat.le_of_not_lt (fun hlt => absurd (hcond hm hlt) (by omega))

theorem trimPiece_le (tok : String → Nat) (maxT : Nat) (hm : ¬ maxT = 0)
    (p : List String) (h : 1 < (trimPiece tok maxT p).length) :
    tok (joinSp (trimPiece tok maxT p)) ≤ maxT :=
  trimGo_le tok maxT hm p.length p (Nat.le_succ _) h

/-! ### Window-loop lemmas -/

theorem chunkGo_eq (tok : String → Nat) (sents : List String) (spc ov maxT minT : Nat) :
    ∀ fuel i,
      chunkGo tok sents spc ov maxT minT fuel i =
        (candGo sents spc ov fuel i).filterMap (fun p =>
          if minT ≤ tok (joinSp (trimPiece tok maxT p))
          then some (joinSp (trimPiece tok maxT p)) else none) := by
  intro fuel
  induction fuel with
  | zero => intro i; rfl
  | succ m ih =>
    intro i
    rw [chunkGo, candGo]
    by_cases hi : i < sents.length
    · rw [if_pos hi, if_pos hi]
      by_cases hemp : ((sents.drop i).take spc).isEmpty
      · rw [if_pos hemp, if_pos hemp]; rfl
      · rw [if_neg hemp, if_neg hemp, List.filterMap_cons, ih]
        by_cases hmin :
            minT ≤ tok (joinSp (trimPiece tok maxT ((sents.drop i).take spc)))
        · rw [if_pos hmin, if_pos hmin]
        · rw [if_neg hmin, if_neg hmin]
    · rw [if_neg hi, if_neg hi]; rfl

theorem chunkSentences_eq (tok : String → Nat) (sents : List String)
    (spc ov maxT minT : Nat) :
    chunkSentences tok sents spc ov maxT minT =
      (candidateWindows sents spc ov).filterMap (fun p =>
        if minT ≤ tok (joinSp (trimPiece tok maxT p))
        then some (joinSp (trimPiece tok maxT p)) else none) :=
  chunkGo_eq tok sents spc ov maxT minT sents.length 0

theorem candGo_mem (sents : List String) (spc ov : Nat) :
    ∀ fuel i p, p ∈ candGo sents spc ov fuel i →
      (∃ j, j < sents.length ∧ p = (sents.drop j).take spc) ∧ ¬ p = [] := by
  intro fuel
  induction fuel with
  | zero => intro i p h; cases h
  | succ m ih =>
    intro i p h
    rw [candGo] at h
    by_cases hi : i < sents.length
    · rw [if_pos hi] at h
      by_cases hemp : ((sents.drop i).take spc).isEmpty
      · rw [if_pos hemp] at h; cases h
      · rw [if_neg hemp] at h
        rcases List.mem_cons.mp h with he | ht
        · subst he
          refine ⟨⟨i, hi, rfl⟩, ?_⟩
          intro hnil
          rw [hnil] at hemp
          exact hemp rfl
        · exact ih _ p ht
    · rw [if_neg hi] at h; cases h
theorem ceil_step (n s : Nat) (hs : 0 < s) (hn : 0 < n) :
    (n - s + s - 1) / s + 1 = (n + s - 1) / s := by
  rcases le_or_lt n s with h | h
  · rw [show n - s = 0 by omega,
       show n + s - 1 = (n - 1) + s by omega, Nat.add_div_right _ hs,
       Nat.div_eq_of_lt (show n - 1 < s by omega),
       Nat.div_eq_of_lt (show 0 + s - 1 < s by omega)]
  · rw [show n + s - 1 = (n - 1) + s by omega,
       show n - s + s - 1 = (n - s - 1) + s by omega,
       Nat.add_div_right _ hs, Nat.add_div_right _ hs,
       show n - 1 = (n - 1 - s) + s by omega, Nat.add_div_right _ hs,
       show n - s - 1 = n - 1 - s by omega]

theorem candGo_length (sents : List String) (spc ov : Nat) (hspc : 0 < spc) :
    ∀ fuel i, sents.length - i ≤ fuel →
      (candGo sents spc ov fuel i).length =
        (sents.length - i + max 1 (spc - ov) - 1) / max 1 (spc - ov) := by
  have hs : 0 < max 1 (spc - ov) := Nat.lt_of_lt_of_le Nat.zero_lt_one (Nat.le_max_left _ _)
  intro fuel
  induction fuel with
  | zero =>
    intro i hle
    rw [candGo, show sents.length - i = 0 by omega,
       Nat.div_eq_of_lt (show 0 + max 1 (spc - ov) - 1 < max 1 (spc - ov) by omega)]
    rfl
  | succ m ih =>
    intro i hle
    rw [candGo]
    by_cases hi : i < sents.length
    · rw [if_pos hi]
      cases hl : (sents.drop i).take spc with
      | nil =>
        exfalso
        have hlen := congrArg List.length hl
        rw [List.length_take, List.length_drop] at hlen
        simp at hlen
        omega
      | cons a t =>
        simp only [List.isEmpty_cons, Bool.false_eq_true, if_false, List.length_cons]
        rw [ih (i + max 1 (spc - ov)) (by omega),
           show sents.length - (i + max 1 (spc - ov)) =
             sents.length - i - max 1 (spc - ov) by omega]
        exact ceil_step (sents.length - i) _ hs (by omega)
    · rw [if_neg hi, show sents.length - i = 0 by omega,
         Nat.div_eq_of_lt (show 0 + max 1 (spc - ov) - 1 < max 1 (spc - ov) by omega)]
      rfl

theorem joinSp_cons_cons (a b : String) (u : List String) :
    joinSp (a :: b :: u) = a ++ " " ++ joinSp (b :: u) := rfl

theorem joinSp_ne_empty (l : List String) (hl : ¬ l = []) (h : ∀ x ∈ l, ¬ x = "") :
    ¬ joinSp l = "" := by
  cases l with
  | nil => exact absurd rfl hl
  | cons a t =>
    cases t with
    | nil => exact h a (by simp)
    | cons b u =>
      intro he
      rw [joinSp_cons_cons] at he
      have hlen := congrArg String.length he
      rw [String.length_append, String.length_append] at hlen
      have h1 : String.length (" ") = 1 := rfl
      have h0 : String.length ("") = 0 := rfl
      rw [h1, h0] at hlen
      omega

theorem split_sentences_ne (s x : String) (h : x ∈ split_sentences s) : ¬ x = "" := by
  unfold split_sentences at h
  exact of_decide_eq_true (List.mem_filter.mp h).2

/-- Shared elimination principle for chunker membership: every emitted chunk
passed the min-token test and is the space-join of the tail-trimmed version of
some visited candidate window. -/
theorem chunk_mem_strong (tok : String → Nat) (sents : List String)
    (spc ov maxT minT : Nat) (hmax : 0 < maxT) :
    ∀ c ∈ chunkSentences tok sents spc ov maxT minT,
      minT ≤ tok c ∧
      ∃ p, p ∈ candidateWindows sents spc ov ∧
        c = joinSp (trimPiece tok maxT p) ∧
        ¬ trimPiece tok maxT p = [] ∧
        trimPiece tok maxT p ⊆ sents ∧
        (1 < (trimPiece tok maxT p).length → tok c ≤ maxT) ∧
        ((trimPiece tok maxT p).length = 1 →
          ∃ s, s ∈ sents ∧ trimPiece tok maxT p = [s] ∧ c = s) := by
  intro c hc
  rw [chunkSentences_eq] at hc
  obtain ⟨p, hp, hsome⟩ := List.mem_filterMap.mp hc
  by_cases hmin : minT ≤ tok (joinSp (trimPiece tok maxT p))
  case neg => rw [if_neg hmin] at hsome; cases hsome
  rw [if_pos hmin] at hsome
  have hce : joinSp (trimPiece tok maxT p) = c := Option.some.inj hsome
  subst hce
  obtain ⟨⟨j, hj, hpe⟩, hpne⟩ := candGo_mem sents spc ov sents.length 0 p hp
  have hsub : trimPiece tok maxT p ⊆ sents := by
    intro x hx
    obtain ⟨n, hn, he⟩ := trimGo_take tok maxT p.length p
    rw [trimPiece, he] at hx
    have hx2 : x ∈ p := List.take_subset _ _ hx
    rw [hpe] at hx2
    exact List.drop_subset _ _ (List.take_subset _ _ hx2)
  refine ⟨hmin, p, hp, rfl, ?_, hsub, ?_, ?_⟩
  · exact trimGo_ne_nil tok maxT p.length p hpne
  · intro hgt
    exact trimPiece_le tok maxT (by omega) p hgt
  · intro h1
    obtain ⟨s, hs⟩ := List.length_eq_one.mp h1
    exact ⟨s, hsub (by rw [hs]; simp), hs, by rw [hs]; rfl⟩

/-- C4: the chunker enforces the token ceiling by tail-trimming: every emitted
chunk is the space-join of a tail-trimmed candidate window with at least
`min_tokens` tokens; a trimmed window of more than one sentence has token
count at most `max_tokens`, and a trimmed window of exactly one sentence is a
whole original sentence emitted untruncated (however many tokens it has). -/
theorem token_ceiling (tok : String → Nat) (sents : List String)
    (spc ov maxT minT : Nat) (hmax : 0 < maxT) :
    ∀ c ∈ chunkSentences tok sents spc ov maxT minT,
      minT ≤ tok c ∧
      ∃ p, p ∈ candidateWindows sents spc ov ∧
        c = joinSp (trimPiece tok maxT p) ∧
        (1 < (trimPiece tok maxT p).length → tok c ≤ maxT) ∧
        ((trimPiece tok maxT p).length = 1 →
          ∃ s, s ∈ sents ∧ trimPiece tok maxT p = [s] ∧ c = s) := by
  intro c hc
  obtain ⟨h1, p, h2, h3, _, _, h6, h7⟩ := chunk_mem_strong tok sents spc ov maxT minT hmax c hc
  exact ⟨h1, p, h2, h3, h6, h7⟩

theorem token_ceiling_witness :
    0 < 3 ∧
    (1 ≤ String.length ("ab") ∧
      ∃ p, p ∈ candidateWindows ["ab", "cd"] 2 1 ∧
        "ab" = joinSp (trimPiece String.length 3 p) ∧
        (1 < (trimPiece String.length 3 p).length → String.length ("ab") ≤ 3) ∧
        ((trimPiece String.length 3 p).length = 1 →
          ∃ s, s ∈ ["ab", "cd"] ∧ trimPiece String.length 3 p = [s] ∧ "ab" = s)) :=
  ⟨by decide, token_ceiling String.length ["ab", "cd"] 2 1 3 1 (by decide) ("ab") (by decide)⟩

/-- C5: with `overlap < sents_per_chunk` the window loop visits exactly
ceil(len(S) / step) candidate windows (step = max(1, spc - overlap)) before
the min-token filter, and an empty sentence list yields an empty output. -/
theorem window_count (S : List String) (spc ov : Nat) (hov : ov < spc) :
    (candidateWindows S spc ov).length =
      (S.length + max 1 (spc - ov) - 1) / max 1 (spc - ov) ∧
    (∀ tok maxT minT, chunkSentences tok S spc ov maxT minT =
      (candidateWindows S spc ov).filterMap (fun p =>
        if minT ≤ tok (joinSp (trimPiece tok maxT p))
        then some (joinSp (trimPiece tok maxT p)) else none)) ∧
    (∀ tok maxT minT, chunkSentences tok ([] : List String) spc ov maxT minT = []) := by
  refine ⟨?_, ?_, ?_⟩
  · have h := candGo_length S spc ov (by omega) S.length 0 (by omega)
    rw [Nat.sub_zero] at h
    exact h
  · intro tok maxT minT
    exact chunkSentences_eq ..
  · intro tok maxT minT
    rfl

theorem window_count_witness :
    1 < 2 ∧ (candidateWindows ["A.", "B.", "C."] 2 1).length =
      (3 + max 1 (2 - 1) - 1) / max 1 (2 - 1) :=
  ⟨by decide, (window_count ["A.", "B.", "C."] 2 1 (by decide)).1⟩

/-- C8: the page text "A. B. C. D." with sents_per_chunk 2, overlap 1 is
segmented into the four sentences and the window loop visits exactly the four
expected candidate windows in order. -/
theorem window_example :
    split_sentences ("A. B. C. D.") = ["A.", "B.", "C.", "D."] ∧
    candidateWindows (split_sentences ("A. B. C. D.")) 2 1 =
      [["A.", "B."], ["B.", "C."], ["C.", "D."], ["D."]] := by
  exact ⟨by decide, by decide⟩

/-- C10: with max_tokens = 0 (falsy in Python) the trimming loop is disabled:
every candidate window whose token count reaches `min_tokens` is emitted
joined but untrimmed, whatever its token count. -/
theorem maxzero_no_trim (tok : String → Nat) (sents : List String) (spc ov minT : Nat) :
    chunkSentences tok sents spc ov 0 minT =
      (candidateWindows sents spc ov).filterMap (fun p =>
        if minT ≤ tok (joinSp p) then some (joinSp p) else none) := by
  rw [chunkSentences_eq]
  congr 1
  funext p
  rw [trimPiece, trimGo_zero]

/-- C2 counterexample: with the default configuration (MAX_TOKENS = 1300,
MIN_TOKENS = 50) a page consisting of one long sentence produces a persisted
chunk whose token count exceeds MAX_TOKENS (token counting abstracted by
character count). -/
theorem chunk_invariant_cex :
    ∃ c ∈ chunk_page_by_sentences (fun s => 1301 * s.length) ("aa")
        SENTS_PER_CHUNK SENT_OVERLAP MAX_TOKENS MIN_TOKENS,
      MAX_TOKENS < 1301 * String.length c := by
  refine ⟨"aa", ?_, by decide⟩
  decide

/-- C2 amended: every persisted chunk has non-empty content and token count
at least MIN_TOKENS; the count is at most MAX_TOKENS whenever the trimmed
window holds more than one sentence, but a single-sentence chunk may exceed
MAX_TOKENS. -/
theorem chunk_invariant (tok : String → Nat) (text : String)
    (spc ov maxT minT : Nat) (hmax : 0 < maxT) :
    ∀ c ∈ chunk_page_by_sentences tok text spc ov maxT minT,
      ¬ c = "" ∧ minT ≤ tok c ∧
      ∃ p, p ∈ candidateWindows (split_sentences text) spc ov ∧
        c = joinSp (trimPiece tok maxT p) ∧
        (1 < (trimPiece tok maxT p).length → tok c ≤ maxT) := by
  intro c hc
  obtain ⟨h1, p, h2, h3, h4, h5, h6, _⟩ :=
    chunk_mem_strong tok (split_sentences text) spc ov maxT minT hmax c hc
  refine ⟨?_, h1, p, h2, h3, h6⟩
  rw [h3]
  exact joinSp_ne_empty _ h4 (fun x hx => split_sentences_ne text x (h5 hx))

theorem chunk_invariant_witness :
    0 < 20 ∧
    (¬ ("Bye!") = "" ∧ 1 ≤ String.length ("Bye!") ∧
      ∃ p, p ∈ candidateWindows (split_sentences ("Hi there. Bye!")) 2 1 ∧
        "Bye!" = joinSp (trimPiece String.length 20 p) ∧
        (1 < (trimPiece String.length 20 p).length → String.length ("Bye!") ≤ 20)) :=
  ⟨by decide,
   chunk_invariant String.length ("Hi there. Bye!") 2 1 20 1 (by decide) ("Bye!") (by decide)⟩
/-! ### Pipeline lemmas and claims -/

theorem batchedGo_flatten (bs : Nat) (hbs : 0 < bs) :
    ∀ fuel (l : List α), l.length ≤ fuel → (batchedGo bs fuel l).flatten = l := by
  intro fuel
  induction fuel with
  | zero =>
    intro l hle
    cases l with
    | nil => rfl
    | cons a t => simp at hle
  | succ m ih =>
    intro l hle
    cases l with
    | nil => rfl
    | cons a t =>
      rw [batchedGo, List.flatten_cons,
         ih ((a :: t).drop bs)
           (by simp only [List.length_drop, List.length_cons] at hle ⊢; omega),
         List.take_append_drop]

theorem batched_flatten (bs : Nat) (hbs : 0 < bs) (l : List α) :
    (batched bs l).flatten = l :=
  batchedGo_flatten bs hbs l.length l (Nat.le_refl _)

theorem foldl_append_eq (L : List (List α)) :
    ∀ a : List α, L.foldl (fun acc b => acc ++ b) a = a ++ L.flatten := by
  induction L with
  | nil => intro a; simp
  | cons x t ih => intro a; rw [List.foldl_cons, ih, List.flatten_cons, List.append_assoc]

theorem batchedGo_map_len (bs : Nat) :
    ∀ fuel (l : List α), (batchedGo bs fuel l).map List.length = sizesGo bs fuel l.length := by
  intro fuel
  induction fuel with
  | zero =>
    intro l
    cases l with
    | nil => rfl
    | cons a t => rfl
  | succ m ih =>
    intro l
    cases l with
    | nil => rfl
    | cons a t =>
      rw [batchedGo, List.map_cons, ih, List.length_take, List.length_drop]
      rfl

/-- C1 counterexample: the deletion of the document's previously persisted
chunks (ingest.py line 88) happens before the PDF is read (line 91), so on
extraction failure the vector index state for the doc_id is *not* unchanged:
a previously persisted row is gone. -/
theorem extraction_failure_cex :
    ¬ ((ingestMain (fun s => s.length) (fun b => b.map (fun _ => []))
          none DOC_ID PDF_PATH SENTS_PER_CHUNK SENT_OVERLAP MAX_TOKENS MIN_TOKENS
          BATCH_EMBED BATCH_INSERT
          [⟨DOC_ID, 0, "old chunk", 1, PDF_PATH, []⟩]).1 =
        [⟨DOC_ID, 0, "old chunk", 1, PDF_PATH, []⟩]) := by
  decide

/-- C1 amended: extraction failure aborts the run *after* the idempotency
delete: the resulting index state is exactly the prior state with the
document's rows removed, and nothing is inserted. -/
theorem extraction_failure_state (tok : String → Nat)
    (embed : List String → List (List Int)) (docId source : String)
    (spc ov maxT minT ebs ibs : Nat) (index : List Row) :
    ingestMain tok embed none docId source spc ov maxT minT ebs ibs index =
      (deleteDoc docId index, none) := rfl

/-- C6: for every successful ingestion the persisted state is the prior state
minus the document's old rows plus the new rows, and the new rows carry
`chunk_index` values exactly 0, 1, ..., N-1 in order (no gaps, no
duplicates, monotone across pages in traversal order). -/
theorem chunk_index_contiguous (tok : String → Nat)
    (embed : List String → List (List Int)) (rawPages : List String)
    (docId source : String) (spc ov maxT minT ebs ibs : Nat) (index : List Row)
    (hibs : 0 < ibs) :
    (ingestMain tok embed (some rawPages) docId source spc ov maxT minT ebs ibs index).1 =
      deleteDoc docId index ++
        ingestRows tok embed rawPages docId source spc ov maxT minT ebs ∧
    (ingestRows tok embed rawPages docId source spc ov maxT minT ebs).map
        Row.chunk_index =
      List.range (ingestRows tok embed rawPages docId source spc ov maxT minT ebs).length := by
  constructor
  · show ((batched ibs _).foldl (fun acc b => acc ++ b) _, _).1 = _
    rw [foldl_append_eq, batched_flatten ibs hibs]
  · rw [ingestRows, buildRows, List.map_map, List.length_map]
    have : (Row.chunk_index ∘ fun e : Nat × (String × (List Int × (Nat × String))) =>
        Row.mk docId e.1 e.2.1 e.2.2.2.1 e.2.2.2.2 e.2.2.1) = Prod.fst := rfl
    rw [this, List.enum_map_fst, List.enum_length]

theorem chunk_index_contiguous_witness :
    0 < 2 ∧
    (ingestRows (fun s => s.length) (fun b => b.map (fun _ => []))
        ["A. B."] ("d") ("p") 2 1 50 1 2).map Row.chunk_index =
      List.range (ingestRows (fun s => s.length) (fun b => b.map (fun _ => []))
        ["A. B."] ("d") ("p") 2 1 50 1 2).length :=
  ⟨by decide,
   (chunk_index_contiguous (fun s => s.length) (fun b => b.map (fun _ => []))
     ["A. B."] ("d") ("p") 2 1 50 1 2 2 [] (by decide)).2⟩

/-- C7: with embed_batch_size 100 an input of 250 chunk contents is split
into exactly 3 batches of sizes 100, 100 and 50; one EmbeddingClient call per
batch (here an order-preserving per-item embedder `f`), concatenated in
order, yields output of length 250 with result[i] the embedding of
input[i]. -/
theorem embed_batches_250 (inputs : List String) (h : inputs.length = 250)
    (f : String → List Int) :
    (batched BATCH_EMBED inputs).length = 3 ∧
    (batched BATCH_EMBED inputs).map List.length = [100, 100, 50] ∧
    embedBatched (fun b => b.map f) BATCH_EMBED inputs = inputs.map f ∧
    (embedBatched (fun b => b.map f) BATCH_EMBED inputs).length = 250 := by
  have hsz : (batched BATCH_EMBED inputs).map List.length = [100, 100, 50] := by
    rw [batched, batchedGo_map_len, h]
    decide
  have hemb : embedBatched (fun b => b.map f) BATCH_EMBED inputs = inputs.map f := by
    rw [embedBatched, ← List.map_flatten, batched_flatten BATCH_EMBED (by decide)]
  refine ⟨?_, hsz, hemb, ?_⟩
  · have := congrArg List.length hsz
    rw [List.length_map] at this
    exact this
  · rw [hemb, List.length_map, h]

theorem embed_batches_250_witness :
    (List.replicate 250 ("x")).length = 250 ∧
    (batched BATCH_EMBED (List.replicate 250 ("x"))).map List.length = [100, 100, 50] :=
  ⟨by decide,
   (embed_batches_250 (List.replicate 250 ("x")) (by decide) (fun _ => [])).2.1⟩

/-! ### Probe claim -/

/-- C9: the retrieval probe is robust to degenerate results: a null or empty
result set is reported as "(no matches)" rather than an error, and a row with
a missing similarity or page field is rendered with the sentinel "?". -/
theorem probe_degenerate (fmt : Int → String) :
    probeLines fmt none = ["  (no matches)"] ∧
    probeLines fmt (some []) = ["  (no matches)"] ∧
    (∀ r : RpcRow, r.similarity = none → simStr fmt r = "?") ∧
    (∀ r : RpcRow, r.metadata = none → pageStr r = "?") ∧
    (∀ r : RpcRow, ∀ m : PageMeta, r.metadata = some m → m.page = none →
      pageStr r = "?") := by
  refine ⟨rfl, rfl, ?_, ?_, ?_⟩
  · intro r h
    rw [simStr, h]
  · intro r h
    simp [pageStr, h]
  · intro r m h hp
    simp [pageStr, h, hp]

theorem probe_degenerate_witness :
    probeLines (fun _ => "") none = ["  (no matches)"] ∧
    simStr (fun _ => "") ⟨none, none, none, none⟩ = "?" ∧
    pageStr ⟨none, none, none, none⟩ = "?" :=
  ⟨(probe_degenerate (fun _ => "")).1,
   (probe_degenerate (fun _ => "")).2.2.1 ⟨none, none, none, none⟩ rfl,
   (probe_degenerate (fun _ => "")).2.2.2.1 ⟨none, none, none, none⟩ rfl⟩
/-! ### Normalization-stage lemmas for C3 -/

theorem dw_len_le (p : α → Bool) (l : List α) : (l.dropWhile p).length ≤ l.length :=
  (List.dropWhile_suffix p).sublist.length_le

theorem replCR_no_cr (l : List Char) : ¬ '\r' ∈ replCR l := by
  intro h
  obtain ⟨c, hc, he⟩ := List.mem_map.mp h
  by_cases h1 : c = '\r'
  · rw [if_pos h1] at he; simp at he
  · rw [if_neg h1] at he; exact h1 he

theorem replCR_eq_self (l : List Char) (h : ¬ '\r' ∈ l) : replCR l = l := by
  induction l with
  | nil => rfl
  | cons a t ih =>
    have ha : ¬ a = '\r' := by
      intro he; exact h (by rw [← he]; exact List.mem_cons_self a t)
    have ht := ih (fun hm => h (List.mem_cons_of_mem a hm))
    calc replCR (a :: t) = (if a = '\r' then ' ' else a) :: replCR t := rfl
    _ = a :: t := by rw [if_neg ha, ht]

theorem replCR_mem_nl (l : List Char) (h : '\n' ∈ replCR l) : '\n' ∈ l := by
  obtain ⟨c, hc, he⟩ := List.mem_map.mp h
  by_cases h1 : c = '\r'
  · rw [if_pos h1] at he; simp at he
  · rw [if_neg h1] at he; rw [he] at hc; exact hc

theorem hyph_subset : ∀ fuel (l : List Char), hyphJoinGo fuel l ⊆ l := by
  intro fuel
  induction fuel with
  | zero => intro l x hx; exact hx
  | succ m ih =>
    intro l
    cases l with
    | nil => intro x hx; cases hx
    | cons a t =>
      intro x hx
      rw [hyphJoinGo] at hx
      split at hx
      · exact List.mem_cons_of_mem a
          ((List.dropWhile_suffix isPySpace).subset (ih _ hx))
      · rcases List.mem_cons.mp hx with he | ht2
        · rw [he]; exact List.mem_cons_self a t
        · exact List.mem_cons_of_mem a (ih t ht2)

theorem hyph_eq_self : ∀ fuel (l : List Char), ¬ '\n' ∈ l → hyphJoinGo fuel l = l := by
  intro fuel
  induction fuel with
  | zero => intro l _; rfl
  | succ m ih =>
    intro l h
    cases l with
    | nil => rfl
    | cons a t =>
      rw [hyphJoinGo,
         if_neg (by
           rintro ⟨_, h2⟩
           exact h (List.mem_cons_of_mem a (List.takeWhile_subset _ h2))),
         ih t (fun hm => h (List.mem_cons_of_mem a hm))]

theorem collapseRun_subset (run : List Char) : ∀ c ∈ collapseRun run, c ∈ run ∨ c = '\n' := by
  intro c hc
  rw [collapseRun] at hc
  split at hc
  · split at hc
    · rcases List.mem_cons.mp hc with he | ht
      · right; exact he
      · left
        exact (List.mem_reverse.mp
          (List.takeWhile_subset _ (List.mem_reverse.mp ht)))
    · left; exact hc
  · left; exact hc

theorem collapseRun_eq_self (run : List Char) (h : ¬ '\n' ∈ run) :
    collapseRun run = run := by
  rw [collapseRun, if_neg h]

theorem wsNl_mem : ∀ fuel (l : List Char), ∀ c ∈ wsNlGo fuel l, c ∈ l ∨ c = '\n' := by
  intro fuel
  induction fuel with
  | zero => intro l c hc; left; exact hc
  | succ m ih =>
    intro l c hc
    cases l with
    | nil => cases hc
    | cons a t =>
      rw [wsNlGo] at hc
      split at hc
      · rcases List.mem_append.mp hc with h1 | h1
        · rcases collapseRun_subset _ c h1 with h2 | h2
          · rcases List.mem_cons.mp h2 with he | ht
            · left; rw [he]; exact List.mem_cons_self a t
            · left; exact List.mem_cons_of_mem a (List.takeWhile_subset _ ht)
          · right; exact h2
        · rcases ih _ c h1 with h2 | h2
          · left
            exact List.mem_cons_of_mem a ((List.dropWhile_suffix isPySpace).subset h2)
          · right; exact h2
      · rcases List.mem_cons.mp hc with he | ht
        · left; rw [he]; exact List.mem_cons_self a t
        · rcases ih t c ht with h2 | h2
          · left; exact List.mem_cons_of_mem a h2
          · right; exact h2

theorem wsNl_eq_self : ∀ fuel (l : List Char), ¬ '\n' ∈ l → wsNlGo fuel l = l := by
  intro fuel
  induction fuel with
  | zero => intro l _; rfl
  | succ m ih =>
    intro l h
    cases l with
    | nil => rfl
    | cons a t =>
      by_cases hp : isPySpace a
      · rw [wsNlGo, if_pos hp,
           collapseRun_eq_self _ (by
             intro hm
             rcases List.mem_cons.mp hm with he | ht
             · exact h (by rw [he]; exact List.mem_cons_self a t)
             · exact h (List.mem_cons_of_mem a (List.takeWhile_subset _ ht))),
           ih _ (fun hm => h (List.mem_cons_of_mem a
             ((List.dropWhile_suffix isPySpace).subset hm)))]
        rw [List.cons_append, List.takeWhile_append_dropWhile]
      · rw [wsNlGo, if_neg hp, ih t (fun hm => h (List.mem_cons_of_mem a hm))]

theorem csp_nil (fuel : Nat) : collapseSpTab fuel [] = [] := by
  cases fuel with
  | zero => rfl
  | succ m => rfl

theorem csp_mem : ∀ fuel (l : List Char), ∀ c ∈ collapseSpTab fuel l, c ∈ l ∨ c = ' ' := by
  intro fuel
  induction fuel with
  | zero => intro l c hc; left; exact hc
  | succ m ih =>
    intro l c hc
    cases l with
    | nil => cases hc
    | cons a t =>
      rw [collapseSpTab] at hc
      split at hc
      · rcases List.mem_cons.mp hc with he | ht
        · right; exact he
        · rcases ih _ c ht with h2 | h2
          · left
            exact List.mem_cons_of_mem a ((List.dropWhile_suffix isSpTab).subset h2)
          · right; exact h2
      · rcases List.mem_cons.mp hc with he | ht
        · left; rw [he]; exact List.mem_cons_self a t
        · rcases ih t c ht with h2 | h2
          · left; exact List.mem_cons_of_mem a h2
          · right; exact h2

theorem csp_no_tab : ∀ fuel (l : List Char), l.length ≤ fuel →
    ¬ '\t' ∈ collapseSpTab fuel l := by
  intro fuel
  induction fuel with
  | zero =>
    intro l hle h
    cases l with
    | nil => cases h
    | cons a t => simp at hle
  | succ m ih =>
    intro l hle h
    cases l with
    | nil => cases h
    | cons a t =>
      rw [collapseSpTab] at h
      split at h
      · rcases List.mem_cons.mp h with he | ht
        · simp at he
        · exact ih _ (by
            have := dw_len_le isSpTab t
            simp at hle
            omega) ht
      · rename_i hp
        rcases List.mem_cons.mp h with he | ht
        · rw [← he] at hp
          simp [isSpTab] at hp
        · exact ih t (by simp at hle; omega) ht

theorem csp_head (fuel : Nat) (c : Char) (rest : List Char) :
    (collapseSpTab (fuel + 1) (c :: rest)).head? =
      some (if isSpTab c then ' ' else c) := by
  rw [collapseSpTab]
  by_cases hp : isSpTab c
  · rw [if_pos hp, if_pos hp]; rfl
  · rw [if_neg hp, if_neg hp]; rfl

theorem csp_goodRuns : ∀ fuel (l : List Char), l.length ≤ fuel →
    goodRuns (collapseSpTab fuel l) := by
  intro fuel
  induction fuel with
  | zero =>
    intro l hle
    cases l with
    | nil => simp [csp_nil, goodRuns]
    | cons a t => simp at hle
  | succ m ih =>
    intro l hle
    cases l with
    | nil => simp [csp_nil, goodRuns]
    | cons a t =>
      simp only [List.length_cons] at hle
      rw [collapseSpTab]
      by_cases hp : isSpTab a
      · rw [if_pos hp]
        refine List.chain'_cons'.mpr ⟨?_, ih _ (by
          have := dw_len_le isSpTab t
          omega)⟩
        intro y hy
        cases hd : t.dropWhile isSpTab with
        | nil => rw [hd, csp_nil] at hy; cases hy
        | cons d u =>
          have hdle : (d :: u).length ≤ m := by
            have h1 := dw_len_le isSpTab t
            rw [hd] at h1
            omega
          cases m with
          | zero => simp at hdle
          | succ k =>
            rw [hd, csp_head] at hy
            have hdf : isSpTab d = false := by
              apply dw_head isSpTab t
              rw [hd]
              rfl
            rw [hdf] at hy
            have hyd : d = y := by simpa using hy
            right
            rw [← hyd]
            exact hdf
      · rw [if_neg hp]
        refine List.chain'_cons'.mpr ⟨?_, ih t (by omega)⟩
        intro y _
        left
        simpa using hp

theorem csp_eq_self : ∀ fuel (l : List Char), goodRuns l → ¬ '\t' ∈ l →
    collapseSpTab fuel l = l := by
  intro fuel
  induction fuel with
  | zero => intro l _ _; rfl
  | succ m ih =>
    intro l hg ht
    cases l with
    | nil => rfl
    | cons a t =>
      rw [collapseSpTab]
      by_cases hp : isSpTab a
      · rw [if_pos hp]
        have ha : a = ' ' := by
          have h2 : a = ' ' ∨ a = '\t' := by simpa [isSpTab] using hp
          rcases h2 with h2 | h2
          · exact h2
          · exact absurd (by rw [← h2]; exact List.mem_cons_self a t) ht
        have hdw : t.dropWhile isSpTab = t := by
          apply dw_eq_self
          intro c hc
          have hr := (List.chain'_cons'.mp hg).1 c hc
          rcases hr with hr | hr
          · rw [hp] at hr; cases hr
          · exact hr
        rw [hdw, ih t (List.chain'_cons'.mp hg).2
             (fun hm => ht (List.mem_cons_of_mem a hm)), ha]
      · rw [if_neg hp, ih t (List.chain'_cons'.mp hg).2
           (fun hm => ht (List.mem_cons_of_mem a hm))]

theorem mapNL_no_nl (l : List Char) : ¬ '\n' ∈ mapNL l := by
  intro h
  obtain ⟨c, hc, he⟩ := List.mem_map.mp h
  by_cases h1 : c = '\n'
  · rw [if_pos h1] at he; simp at he
  · rw [if_neg h1] at he; exact h1 he

theorem mapNL_eq_self (l : List Char) (h : ¬ '\n' ∈ l) : mapNL l = l := by
  induction l with
  | nil => rfl
  | cons a t ih =>
    have ha : ¬ a = '\n' := by
      intro he; exact h (by rw [← he]; exact List.mem_cons_self a t)
    have ht := ih (fun hm => h (List.mem_cons_of_mem a hm))
    calc mapNL (a :: t) = (if a = '\n' then ' ' else a) :: mapNL t := rfl
    _ = a :: t := by rw [if_neg ha, ht]

theorem mapNL_mem (l : List Char) (c : Char) (h : c ∈ mapNL l) : c ∈ l ∨ c = ' ' := by
  obtain ⟨d, hd, he⟩ := List.mem_map.mp h
  by_cases h1 : d = '\n'
  · rw [if_pos h1] at he; right; rw [he]
  · rw [if_neg h1] at he; left; rw [he] at hd; exact hd

theorem pyStripL_subset (l : List Char) : pyStripL l ⊆ l := by
  intro x hx
  rw [pyStripL, List.mem_reverse] at hx
  have h1 := (List.dropWhile_suffix isPySpace).subset hx
  rw [List.mem_reverse] at h1
  exact (List.dropWhile_suffix isPySpace).subset h1

theorem goodRuns_dropWhile (p : Char → Bool) (l : List Char) (h : goodRuns l) :
    goodRuns (l.dropWhile p) := by
  induction l with
  | nil => exact h
  | cons a t ih =>
    rw [List.dropWhile_cons]
    by_cases hp : p a
    · rw [if_pos hp]
      exact ih (List.chain'_cons'.mp h).2
    · rw [if_neg hp]
      exact h

theorem goodRuns_reverse (l : List Char) (h : goodRuns l) : goodRuns l.reverse := by
  rw [goodRuns, List.chain'_reverse]
  exact List.Chain'.imp (fun a b hab => hab.symm) h

theorem goodRuns_pyStripL (l : List Char) (h : goodRuns l) : goodRuns (pyStripL l) :=
  goodRuns_reverse _ (goodRuns_dropWhile _ _ (goodRuns_reverse _ (goodRuns_dropWhile _ _ h)))

/-- The fully unfolded normalization pipeline of `clean_text`. -/
theorem clean_text_shape (s : String) :
    clean_text s = pyStrip ⟨mapNL (collapseSpTab
      (wsNlGo (hyphJoinGo (replCR s.data).length (replCR s.data)).length
         (hyphJoinGo (replCR s.data).length (replCR s.data))).length
      (wsNlGo (hyphJoinGo (replCR s.data).length (replCR s.data)).length
         (hyphJoinGo (replCR s.data).length (replCR s.data))))⟩ := rfl

theorem clean_text_no_nl (s : String) : ¬ '\n' ∈ (clean_text s).data := by
  rw [clean_text_shape]
  intro h
  exact mapNL_no_nl _ (pyStripL_subset _ h)

theorem clean_text_no_cr (s : String) : ¬ '\r' ∈ (clean_text s).data := by
  rw [clean_text_shape]
  intro h
  have h4 := pyStripL_subset _ h
  rcases mapNL_mem _ _ h4 with h4 | h4
  · rcases csp_mem _ _ _ h4 with h3 | h3
    · rcases wsNl_mem _ _ _ h3 with h2 | h2
      · exact replCR_no_cr _ (hyph_subset _ _ h2)
      · simp at h2
    · simp at h3
  · simp at h4

theorem clean_text_no_tab (s : String) : ¬ '\t' ∈ (clean_text s).data := by
  rw [clean_text_shape]
  intro h
  have h4 := pyStripL_subset _ h
  rcases mapNL_mem _ _ h4 with h4 | h4
  · exact csp_no_tab _ _ (Nat.le_refl _) h4
  · simp at h4

theorem clean_text_goodRuns (s : String) (h : ¬ '\n' ∈ s.data) :
    goodRuns (clean_text s).data := by
  rw [clean_text_shape]
  have h1 : ¬ '\n' ∈ replCR s.data := fun hm => h (replCR_mem_nl _ hm)
  have h2 : ¬ '\n' ∈ hyphJoinGo (replCR s.data).length (replCR s.data) :=
    fun hm => h1 (hyph_subset _ _ hm)
  rw [wsNl_eq_self _ _ h2]
  have h4 : ¬ '\n' ∈ collapseSpTab
      (hyphJoinGo (replCR s.data).length (replCR s.data)).length
      (hyphJoinGo (replCR s.data).length (replCR s.data)) := by
    intro hm
    rcases csp_mem _ _ _ hm with hm | hm
    · exact h2 hm
    · simp at hm
  rw [mapNL_eq_self _ h4]
  exact goodRuns_pyStripL _ (csp_goodRuns _ _ (Nat.le_refl _))

theorem clean_text_fix (r : String) (h1 : ¬ '\r' ∈ r.data) (h2 : ¬ '\n' ∈ r.data)
    (h3 : ¬ '\t' ∈ r.data) (h4 : goodRuns r.data) : clean_text r = pyStrip r := by
  rw [clean_text_shape, replCR_eq_self _ h1, hyph_eq_self _ _ h2, wsNl_eq_self _ _ h2,
     csp_eq_self _ _ h4 h3, mapNL_eq_self _ h2]

/-- C3 counterexample: `normalize` is not idempotent. On "a\n b" the newline
is replaced by a space only after the space-run collapsing step, so the first
pass leaves a double space that the second pass collapses. -/
theorem normalize_idem_cex :
    ¬ clean_text (clean_text ("a\n b")) = clean_text ("a\n b") := by decide

/-- C3 amended: `normalize` is idempotent on every input containing no
newline character (in particular on all single-line prose); inputs with
newlines may need a second pass, as the counterexample shows. -/
theorem normalize_idem (s : String) (h : ¬ '\n' ∈ s.data) :
    clean_text (clean_text s) = clean_text s := by
  rw [clean_text_fix (clean_text s) (clean_text_no_cr s) (clean_text_no_nl s)
      (clean_text_no_tab s) (clean_text_goodRuns s h)]
  rw [clean_text_shape s]
  exact pyStrip_idem _

theorem normalize_idem_witness :
    ¬ '\n' ∈ ("a b").data ∧ clean_text (clean_text ("a b")) = clean_text ("a b") :=
  ⟨by decide, normalize_idem ("a b") (by decide)⟩

end MedRag
